import Mathlib

/-!
Shallow embedding of the reactive dependency-tracking core:
the `Watcher` class (computation node) and the deep-traversal
function `traverse` / `_traverse`.

External collaborators (Dep/Publisher, scheduler, error reporter,
the global target stack, the vm watcher registry) are modelled by an
explicit event trace: every call the Watcher makes into a collaborator
is recorded as an `Ev` value, in program order.  A `Dep` is identified
by its numeric `id`, which is all the Watcher code inspects.
-/

namespace VueCore

/-- Runtime values as far as the Watcher compares them: `undef`,
primitives (compared by value), and composite object/array references
(compared by reference identity, modelled as a numeric heap address).
Equality of `Value` models the JavaScript `===` on these values. -/
inductive Value where
  | undef : Value
  | prim : Nat → Value
  | obj : Nat → Value
deriving DecidableEq, Repr

/-- `isObject(value)` from the utility module: true exactly for
non-null values of object type, i.e. composite objects and arrays. -/
def isObjectV : Value → Bool
  | Value.obj _ => true
  | _ => false

/-- One observable call from the Watcher into a collaborator. -/
inductive Ev where
  | addSub : Nat → Ev
  | removeSub : Nat → Ev
  | queueWatcher : Ev
  | pushTarget : Ev
  | popTarget : Ev
  | reportError : Ev
  | traverseVal : Value → Ev
  | callCb : Value → Value → Value → Ev
  | removeFromVm : Ev
deriving DecidableEq, Repr

/-- The state of one `Watcher` instance.  `deps`/`newDeps` hold the dep
ids of the held `Dep` references (order preserved); `depIds`/`newDepIds`
are the id sets.  The `*Tag` fields are the identities of the four
underlying containers, so that the double-buffer swap performed by
`cleanupDeps` (which reuses the containers instead of allocating new
ones) is observable in the model. -/
structure Watcher where
  deep : Bool
  user : Bool
  lazy : Bool
  sync : Bool
  active : Bool
  dirty : Bool
  deps : List Nat
  newDeps : List Nat
  depIds : Finset Nat
  newDepIds : Finset Nat
  depsTag : Nat
  newDepsTag : Nat
  depIdsTag : Nat
  newDepIdsTag : Nat
  value : Value
deriving DecidableEq

/-- One evaluation of the watcher's getter, abstracted to what the
Watcher can observe: the sequence of dep ids whose instrumented getters
fire (each firing calls `addDep` on the in-flight watcher) and the
outcome — `some v` for a normal return, `none` when the getter throws. -/
structure EvalSpec where
  reads : List Nat
  result : Option Value
deriving DecidableEq

/-- `Watcher.addDep` (part_000 lines 132-143): register dep `id` for the
in-flight evaluation; subscribe only if it is new to both the pending
and the previous id set. -/
def addDep (w : Watcher) (id : Nat) : Watcher × List Ev :=
  if id ∈ w.newDepIds then (w, [])
  else
    let w' := { w with newDepIds := insert id w.newDepIds, newDeps := w.newDeps ++ [id] }
    if id ∈ w.depIds then (w', []) else (w', [Ev.addSub id])

/-- `Watcher.cleanupDeps` (part_000 lines 148-164): unsubscribe from
every previously held dep whose id is absent from `newDepIds`
(iterating `deps` from the last index down), then swap the
double-buffered containers and clear the now-pending ones. -/
def cleanupDeps (w : Watcher) : Watcher × List Ev :=
  let evs := (w.deps.reverse.filter (fun d => d ∉ w.newDepIds)).map Ev.removeSub
  ({ w with
      depIds := w.newDepIds, newDepIds := ∅,
      depIdsTag := w.newDepIdsTag, newDepIdsTag := w.depIdsTag,
      deps := w.newDeps, newDeps := [],
      depsTag := w.newDepsTag, newDepsTag := w.depsTag }, evs)

/-- The sequence of `addDep` calls performed during one getter
evaluation: the instrumented getter of every dep read calls
`dep.depend()`, which forwards to `Dep.target.addDep(dep)`. -/
def runReads (w : Watcher) (reads : List Nat) : Watcher × List Ev :=
  match reads with
  | [] => (w, [])
  | d :: rest =>
    let r1 := addDep w d
    let r2 := runReads r1.1 rest
    (r2.1, r1.2 ++ r2.2)

/-- The content of the local `value` variable of `get` when the
`finally` block runs: the getter's result, or `undefined` when the
getter threw before assigning it. -/
def resultValue (sp : EvalSpec) : Value :=
  match sp.result with
  | some v => v
  | none => Value.undef

/-- `Watcher.get` (part_000 lines 101-123): push the target, run the
getter (reads fire `addDep`), handle a thrown getter per the `user`
flag, and in the `finally` block traverse the (possibly undefined)
value when `deep`, pop the target and reconcile the dep sets.  The
returned `Except` is `Except.error ()` when the exception propagates
to the caller. -/
def get (w : Watcher) (sp : EvalSpec) : Watcher × Except Unit Value × List Ev :=
  let r1 := runReads w sp.reads
  let errEvs : List Ev :=
    match sp.result with
    | some _ => []
    | none => if w.user then [Ev.reportError] else []
  let deepEvs : List Ev := if w.deep then [Ev.traverseVal (resultValue sp)] else []
  let r2 := cleanupDeps r1.1
  let ret : Except Unit Value :=
    match sp.result with
    | some v => Except.ok v
    | none => if w.user then Except.ok Value.undef else Except.error ()
  (r2.1, ret, Ev.pushTarget :: (r1.2 ++ errEvs ++ deepEvs ++ [Ev.popTarget] ++ r2.2))

/-- `Watcher.run` (part_000 lines 185-210): no-op unless `active`;
re-evaluate via `get`; fire the callback when the value changed by
identity, or is a composite, or the watcher is `deep`.  The new value
is stored into `this.value` before the callback runs; the third field
of the `callCb` event records the watcher's stored `value` at the
moment the callback is invoked.  `cbThrows` says whether the callback
itself throws when invoked. -/
def run (w : Watcher) (sp : EvalSpec) (cbThrows : Bool) : Watcher × Except Unit Unit × List Ev :=
  if w.active then
    let r := get w sp
    match r.2.1 with
    | Except.error e => (r.1, Except.error e, r.2.2)
    | Except.ok value =>
      if value ≠ r.1.value ∨ isObjectV value = true ∨ r.1.deep = true then
        let oldValue := r.1.value
        let w2 := { r.1 with value := value }
        let cbEv := Ev.callCb value oldValue w2.value
        if w2.user then
          if cbThrows then (w2, Except.ok (), r.2.2 ++ [cbEv, Ev.reportError])
          else (w2, Except.ok (), r.2.2 ++ [cbEv])
        else
          if cbThrows then (w2, Except.error (), r.2.2 ++ [cbEv])
          else (w2, Except.ok (), r.2.2 ++ [cbEv])
      else (r.1, Except.ok (), r.2.2)
  else (w, Except.ok (), [])

/-- `Watcher.update` (part_000 lines 170-179): lazy watchers only mark
themselves dirty; sync watchers run inline; all others are handed to
the scheduler via `queueWatcher`. -/
def update (w : Watcher) (sp : EvalSpec) (cbThrows : Bool) :
    Watcher × Except Unit Unit × List Ev :=
  if w.lazy then ({ w with dirty := true }, Except.ok (), [])
  else if w.sync then run w sp cbThrows
  else (w, Except.ok (), [Ev.queueWatcher])

/-- `Watcher.evaluate` (part_000 lines 216-219): `this.value = this.get();
this.dirty = false`.  When `get` throws, neither assignment happens. -/
def evaluate (w : Watcher) (sp : EvalSpec) : Watcher × Except Unit Unit × List Ev :=
  let r := get w sp
  match r.2.1 with
  | Except.error e => (r.1, Except.error e, r.2.2)
  | Except.ok v => ({ r.1 with value := v, dirty := false }, Except.ok (), r.2.2)

/-- `Watcher.teardown` (part_000 lines 234-248): when still active,
remove self from the vm registry (unless the vm is being destroyed),
call `removeSub` on every held dep (last index down), and clear
`active`.  A second call is a no-op. -/
def teardown (w : Watcher) (isBeingDestroyed : Bool) : Watcher × List Ev :=
  if w.active then
    let vmEvs : List Ev := if isBeingDestroyed then [] else [Ev.removeFromVm]
    ({ w with active := false }, vmEvs ++ w.deps.reverse.map Ev.removeSub)
  else (w, [])

/-!
Embedding of `src/core/observer/traverse.js`.

JavaScript values are modelled as an explicit finite heap of composite
objects addressed by `Nat`, so that cyclic and shared (aliased)
structures are expressible.  Each heap object records whether it is an
array, whether it is frozen, whether it is a `VNode` instance, its
optional attached observation record (`__ob__.dep.id`), and its child
values — the array elements for an array, the own-key values in
`Object.keys` order for a plain object.  Both loops in the source read
the children by descending index, so the embedding recurses over the
reversed child list in both cases.

The source recursion is partial on arbitrary heaps (an un-instrumented
cycle loops forever), so the embedding takes an explicit fuel; `none`
means the fuel ran out.  Besides the updated seen-set the embedding
returns the list of dep ids whose subtree was processed (in order) and
the list of child values read, making the subscription behaviour of a
call observable.
-/

inductive JSVal where
  | undef : JSVal
  | prim : Nat → JSVal
  | ref : Nat → JSVal
deriving DecidableEq, Repr

structure HObj where
  isArr : Bool
  frozen : Bool
  isVNode : Bool
  ob : Option Nat
  fields : List JSVal
deriving DecidableEq, Repr

abbrev Heap := List (Nat × HObj)

/-- Heap lookup by address. -/
def hlookup : Heap → Nat → Option HObj
  | [], _ => none
  | (k, o) :: rest, r => if r = k then some o else hlookup rest r

/-- Result of a (terminating) `_traverse` call: the seen-set on return,
the dep ids whose subtree was entered (in entry order), and every child
value read (each read fires the child's instrumented getter). -/
structure TraceResult where
  seen : Finset Nat
  processed : List Nat
  reads : List JSVal
deriving DecidableEq

/-- The `while (i--) _traverse(val[i], seen)` / `Object.keys` loop of
`_traverse`: traverse the given children in order, threading the
mutable seen-set through, recording each child as read. -/
def childFold (f : JSVal → Finset Nat → Option TraceResult) :
    List JSVal → Finset Nat → Option TraceResult
  | [], seen => some ⟨seen, [], []⟩
  | c :: cs, seen =>
    match f c seen with
    | none => none
    | some t =>
      match childFold f cs t.seen with
      | none => none
      | some t2 => some ⟨t2.seen, t.processed ++ t2.processed, (c :: t.reads) ++ t2.reads⟩

/-- `_traverse` (traverse.js lines 19-39): return on non-composites,
frozen values and VNodes; skip an instrumented object whose dep id is
already seen, otherwise record it and descend into every child (last
index first, as both source loops do). -/
def _traverse (h : Heap) : Nat → JSVal → Finset Nat → Option TraceResult
  | 0, _, _ => none
  | Nat.succ fuel, val, seen =>
    match val with
    | JSVal.undef => some ⟨seen, [], []⟩
    | JSVal.prim _ => some ⟨seen, [], []⟩
    | JSVal.ref r =>
      match hlookup h r with
      | none => some ⟨seen, [], []⟩
      | some o =>
        if o.frozen || o.isVNode then some ⟨seen, [], []⟩
        else
          match o.ob with
          | some d =>
            if d ∈ seen then some ⟨seen, [], []⟩
            else
              match childFold (_traverse h fuel) o.fields.reverse (insert d seen) with
              | none => none
              | some t => some ⟨t.seen, d :: t.processed, t.reads⟩
          | none => childFold (_traverse h fuel) o.fields.reverse seen

/-- `traverse` (traverse.js lines 14-17): run `_traverse` on the
module-level `seenObjects` set, then clear it.  The second component of
the result is the `seenObjects` state after the call returns. -/
def traverse (h : Heap) (fuel : Nat) (val : JSVal) (seenObjects : Finset Nat) :
    Option (TraceResult × Finset Nat) :=
  match _traverse h fuel val seenObjects with
  | none => none
  | some t => some (t, ∅)

/-- All dep ids attached to objects of a heap. -/
def heapDepIds (h : Heap) : Finset Nat :=
  h.foldr (fun p acc => match p.2.ob with | some d => insert d acc | none => acc) ∅

/-- A value is a traversal leaf: not a composite, dangling, frozen, or
a VNode.  `_traverse` returns immediately on leaves. -/
def isLeafVal (h : Heap) : JSVal → Bool
  | JSVal.undef => true
  | JSVal.prim _ => true
  | JSVal.ref r =>
    match hlookup h r with
    | none => true
    | some o => o.frozen || o.isVNode

/-- Termination measure rank of a value: `0` on leaves, one more than
the supplied object rank on a traversable reference. -/
def rkVal (h : Heap) (rank : Nat → Nat) : JSVal → Nat
  | JSVal.undef => 0
  | JSVal.prim _ => 0
  | JSVal.ref r =>
    match hlookup h r with
    | none => 0
    | some o => if o.frozen || o.isVNode then 0 else rank r + 1

/-- Termination measure of a `_traverse` call. -/
def tMeasure (h : Heap) (rank : Nat → Nat) (R : Nat) (val : JSVal) (seen : Finset Nat) : Nat :=
  ((heapDepIds h) \ seen).card * (R + 2) + rkVal h rank val

/-- `rank` strictly decreases from an un-instrumented object to a child
value, whenever that child is itself a traversable heap object.  A rank
function satisfying this for every un-instrumented traversable object
witnesses that every reference cycle passes through an instrumented
object (the un-instrumented edge subgraph is acyclic). -/
def childRankOk (h : Heap) (rank : Nat → Nat) (bound : Nat) : JSVal → Bool
  | JSVal.ref r' =>
    match hlookup h r' with
    | none => true
    | some o' => o'.frozen || o'.isVNode || decide (rank r' < bound)
  | _ => true

/-- Invariant of one `_traverse` call started with seen-set `s`: the
returned seen-set is `s` plus exactly the processed dep ids, the
processed ids are pairwise distinct, and none of them was seen before
the call — one subtree processing per dep id. -/
def TInv (s : Finset Nat) (t : TraceResult) : Prop :=
  t.seen = s ∪ t.processed.toFinset ∧ t.processed.Nodup ∧ ∀ d ∈ t.processed, d ∉ s

/-! Concrete instances used by the witness theorems. -/

/-- A watcher mid-evaluation: previous dep set `{2, 9}`, empty pending
containers. -/
def w0 : Watcher :=
  { deep := false, user := false, lazy := false, sync := false,
    active := true, dirty := false,
    deps := [2, 9], newDeps := [],
    depIds := {2, 9}, newDepIds := ∅,
    depsTag := 0, newDepsTag := 1, depIdsTag := 2, newDepIdsTag := 3,
    value := Value.prim 5 }

/-- A watcher just after its getter ran, pending containers holding
`{2, 3}`, previous dep set `{1, 2}`. -/
def w1 : Watcher :=
  { deep := false, user := false, lazy := false, sync := false,
    active := true, dirty := false,
    deps := [1, 2], newDeps := [2, 3],
    depIds := {1, 2}, newDepIds := {2, 3},
    depsTag := 0, newDepsTag := 1, depIdsTag := 2, newDepIdsTag := 3,
    value := Value.prim 5 }

/-- A deep user watcher, previous dep set `{7}`. -/
def w2 : Watcher :=
  { deep := true, user := true, lazy := false, sync := false,
    active := true, dirty := false,
    deps := [7], newDeps := [],
    depIds := {7}, newDepIds := ∅,
    depsTag := 0, newDepsTag := 1, depIdsTag := 2, newDepIdsTag := 3,
    value := Value.prim 5 }

/-- A lazy dirty watcher with a non-throwing alternative getter. -/
def w3 : Watcher :=
  { deep := false, user := false, lazy := true, sync := false,
    active := true, dirty := true,
    deps := [], newDeps := [],
    depIds := ∅, newDepIds := ∅,
    depsTag := 0, newDepsTag := 1, depIdsTag := 2, newDepIdsTag := 3,
    value := Value.prim 5 }

/-- A sync watcher with no previous deps. -/
def w4 : Watcher :=
  { deep := false, user := false, lazy := false, sync := true,
    active := true, dirty := false,
    deps := [], newDeps := [],
    depIds := ∅, newDepIds := ∅,
    depsTag := 0, newDepsTag := 1, depIdsTag := 2, newDepIdsTag := 3,
    value := Value.prim 5 }

/-- A getter reading deps 3, 3, 2, 4 and returning the primitive 6. -/
def sp0 : EvalSpec := { reads := [3, 3, 2, 4], result := some (Value.prim 6) }

/-- A throwing getter that read dep 3 before throwing. -/
def spThrow : EvalSpec := { reads := [3], result := none }

/-- A getter returning the same primitive the watcher already holds. -/
def spSame : EvalSpec := { reads := [], result := some (Value.prim 5) }

/-- A getter returning a composite value. -/
def spObj : EvalSpec := { reads := [], result := some (Value.obj 0) }

/-- A heap with a self-referential instrumented object at address 0. -/
def hCyc : Heap := [(0, ⟨false, false, false, some 10, [JSVal.ref 0, JSVal.prim 1]⟩)]

/-- A heap where the instrumented object at 2 is shared: object 0 holds
two references to it. -/
def hShared : Heap :=
  [(0, ⟨false, false, false, some 1, [JSVal.ref 2, JSVal.ref 2]⟩),
   (2, ⟨false, false, false, some 5, [JSVal.prim 7]⟩)]

/-! Helper lemmas about `addDep` and `runReads`. -/

theorem addDep_fst (w : Watcher) (d : Nat) :
    (addDep w d).1 = if d ∈ w.newDepIds then w
      else { w with newDepIds := insert d w.newDepIds, newDeps := w.newDeps ++ [d] } := by
  by_cases h : d ∈ w.newDepIds
  · simp [addDep, h]
  · by_cases h2 : d ∈ w.depIds <;> simp [addDep, h, h2]

theorem addDep_snd (w : Watcher) (d : Nat) :
    (addDep w d).2 = if d ∉ w.newDepIds ∧ d ∉ w.depIds then [Ev.addSub d] else [] := by
  by_cases h : d ∈ w.newDepIds
  · simp [addDep, h]
  · by_cases h2 : d ∈ w.depIds <;> simp [addDep, h, h2]

theorem runReads_shape (reads : List Nat) : ∀ w : Watcher,
    ∃ s t, (runReads w reads).1 = { w with newDepIds := s, newDeps := t } := by
  induction reads with
  | nil => exact fun w => ⟨w.newDepIds, w.newDeps, rfl⟩
  | cons d rest ih =>
    intro w
    obtain ⟨s, t, h⟩ := ih (addDep w d).1
    refine ⟨s, t, ?_⟩
    show (runReads (addDep w d).1 rest).1 = _
    rw [h, addDep_fst]
    split
    · rfl
    · rfl

theorem runReads_snd_shape (reads : List Nat) : ∀ (w : Watcher),
    ∀ e ∈ (runReads w reads).2, ∃ d, e = Ev.addSub d := by
  induction reads with
  | nil => intro w e he; simp [runReads] at he
  | cons d rest ih =>
    intro w e he
    simp only [runReads, List.mem_append] at he
    rcases he with he | he
    · rw [addDep_snd] at he
      split at he
      · simp at he; exact ⟨d, he⟩
      · simp at he
    · exact ih (addDep w d).1 e he

theorem runReads_newDepIds (reads : List Nat) : ∀ (w : Watcher) (x : Nat),
    x ∈ (runReads w reads).1.newDepIds ↔ (x ∈ w.newDepIds ∨ x ∈ reads) := by
  induction reads with
  | nil => intro w x; simp [runReads]
  | cons d rest ih =>
    intro w x
    show x ∈ (runReads (addDep w d).1 rest).1.newDepIds ↔ _
    rw [ih]
    rw [addDep_fst]
    by_cases h : d ∈ w.newDepIds
    · simp only [if_pos h, List.mem_cons]
      constructor
      · rintro (hx | hx)
        · exact Or.inl hx
        · exact Or.inr (Or.inr hx)
      · rintro (hx | hx | hx)
        · exact Or.inl hx
        · exact Or.inl (hx ▸ h)
        · exact Or.inr hx
    · simp only [if_neg h, Finset.mem_insert, List.mem_cons]
      tauto

theorem runReads_pending (reads : List Nat) : ∀ (w : Watcher),
    w.newDeps.Nodup → (∀ x, x ∈ w.newDeps ↔ x ∈ w.newDepIds) →
    (runReads w reads).1.newDeps.Nodup ∧
      (∀ x, x ∈ (runReads w reads).1.newDeps ↔ x ∈ (runReads w reads).1.newDepIds) := by
  induction reads with
  | nil => intro w h1 h2; exact ⟨h1, h2⟩
  | cons d rest ih =>
    intro w h1 h2
    show (runReads (addDep w d).1 rest).1.newDeps.Nodup ∧ _
    apply ih
    · rw [addDep_fst]
      split
      · exact h1
      · next h =>
        simp only [List.nodup_append, List.nodup_cons]
        refine ⟨h1, by simp, ?_⟩
        intro x hx hx'
        simp at hx'
        exact h (hx' ▸ ((h2 x).mp hx))
    · rw [addDep_fst]
      split
      · exact h2
      · intro x
        simp only [List.mem_append, List.mem_singleton, Finset.mem_insert]
        rw [h2 x]
        tauto

theorem runReads_addSub_count (reads : List Nat) : ∀ (w : Watcher) (d : Nat),
    (runReads w reads).2.count (Ev.addSub d) =
      if d ∈ reads ∧ d ∉ w.newDepIds ∧ d ∉ w.depIds then 1 else 0 := by
  induction reads with
  | nil => intro w d; simp [runReads]
  | cons a rest ih =>
    intro w d
    show ((addDep w a).2 ++ (runReads (addDep w a).1 rest).2).count (Ev.addSub d) = _
    rw [List.count_append, ih, addDep_snd]
    have hdep : (addDep w a).1.depIds = w.depIds := by
      rw [addDep_fst]; split <;> rfl
    rw [hdep]
    by_cases hd : d = a
    · subst hd
      by_cases h1 : d ∈ w.newDepIds
      · have hniff : d ∈ (addDep w d).1.newDepIds := by
          rw [addDep_fst, if_pos h1]; exact h1
        simp [h1, hniff]
      · have hniff : d ∈ (addDep w d).1.newDepIds := by
          rw [addDep_fst, if_neg h1]; exact Finset.mem_insert_self _ _
        by_cases h2 : d ∈ w.depIds
        · simp [h1, h2, hniff]
        · simp [h1, h2, hniff]
    · have hniff : d ∈ (addDep w a).1.newDepIds ↔ d ∈ w.newDepIds := by
        rw [addDep_fst]
        split
        · exact Iff.rfl
        · simp [Finset.mem_insert, hd]
      have h0 : (if a ∉ w.newDepIds ∧ a ∉ w.depIds then [Ev.addSub a] else []).count
          (Ev.addSub d) = 0 := by
        split <;> simp [List.count_cons, List.count_nil, hd]
      rw [h0, Nat.zero_add]
      refine if_congr ?_ rfl rfl
      rw [hniff]
      simp [List.mem_cons, hd]

/-! Helper lemmas about `cleanupDeps` and `get`. -/

theorem cleanupDeps_snd_shape (w : Watcher) :
    ∀ e ∈ (cleanupDeps w).2, ∃ d, e = Ev.removeSub d := by
  intro e he
  simp only [cleanupDeps, List.mem_map] at he
  obtain ⟨d, _, rfl⟩ := he
  exact ⟨d, rfl⟩

theorem cleanupDeps_removeSub_mem (w : Watcher) (d : Nat) :
    Ev.removeSub d ∈ (cleanupDeps w).2 ↔ (d ∈ w.deps ∧ d ∉ w.newDepIds) := by
  simp [cleanupDeps, List.mem_map, List.mem_filter, List.mem_reverse]

theorem get_fst (w : Watcher) (sp : EvalSpec) :
    (get w sp).1 = (cleanupDeps (runReads w sp.reads).1).1 := rfl

theorem get_fst_fields (w : Watcher) (sp : EvalSpec) :
    (get w sp).1.value = w.value ∧ (get w sp).1.active = w.active ∧
    (get w sp).1.deep = w.deep ∧ (get w sp).1.user = w.user ∧
    (get w sp).1.lazy = w.lazy ∧ (get w sp).1.sync = w.sync ∧
    (get w sp).1.dirty = w.dirty ∧
    (get w sp).1.newDepIds = ∅ ∧ (get w sp).1.newDeps = [] := by
  obtain ⟨s, t, h⟩ := runReads_shape sp.reads w
  rw [get_fst, h]
  exact ⟨rfl, rfl, rfl, rfl, rfl, rfl, rfl, rfl, rfl⟩

theorem get_snd_events (w : Watcher) (sp : EvalSpec) :
    (get w sp).2.2 = Ev.pushTarget ::
      ((runReads w sp.reads).2 ++
        (match sp.result with
          | some _ => []
          | none => if w.user then [Ev.reportError] else []) ++
        (if w.deep then [Ev.traverseVal (resultValue sp)] else []) ++
        [Ev.popTarget] ++ (cleanupDeps (runReads w sp.reads).1).2) := rfl

theorem get_popTarget (w : Watcher) (sp : EvalSpec) : Ev.popTarget ∈ (get w sp).2.2 := by
  rw [get_snd_events]
  simp

theorem get_traverse_iff_deep (w : Watcher) (sp : EvalSpec) (v : Value) :
    Ev.traverseVal v ∈ (get w sp).2.2 ↔ (w.deep = true ∧ v = resultValue sp) := by
  rw [get_snd_events]
  constructor
  · intro h
    simp only [List.mem_cons, List.mem_append] at h
    rcases h with h | ((((h | h) | h) | h) | h)
    · exact absurd h (by simp)
    · obtain ⟨d, hd⟩ := runReads_snd_shape sp.reads w _ h
      exact absurd hd (by simp)
    · rcases hr : sp.result with _ | v'
      · rw [hr] at h
        split at h <;> simp at h
      · rw [hr] at h
        simp at h
    · split at h
      · next hdeep =>
        simp only [List.mem_singleton] at h
        cases h
        exact ⟨hdeep, rfl⟩
      · simp at h
    · exact absurd h (by simp)
    · obtain ⟨d, hd⟩ := cleanupDeps_snd_shape _ _ h
      exact absurd hd (by simp)
  · rintro ⟨hdeep, rfl⟩
    simp [hdeep]

theorem get_no_callCb (w : Watcher) (sp : EvalSpec) (a b c : Value) :
    Ev.callCb a b c ∉ (get w sp).2.2 := by
  rw [get_snd_events]
  intro h
  simp only [List.mem_cons, List.mem_append] at h
  rcases h with h | ((((h | h) | h) | h) | h)
  · exact absurd h (by simp)
  · obtain ⟨d, hd⟩ := runReads_snd_shape sp.reads w _ h
    exact absurd hd (by simp)
  · rcases hr : sp.result with _ | v'
    · rw [hr] at h
      split at h <;> simp at h
    · rw [hr] at h
      simp at h
  · split at h <;> simp at h
  · exact absurd h (by simp)
  · obtain ⟨d, hd⟩ := cleanupDeps_snd_shape _ _ h
    exact absurd hd (by simp)

theorem get_ret_ok (w : Watcher) (sp : EvalSpec) (v : Value) (h : sp.result = some v) :
    (get w sp).2.1 = Except.ok v := by
  simp [get, h]

theorem get_ret_throw_user (w : Watcher) (sp : EvalSpec)
    (h : sp.result = none) (hu : w.user = true) :
    (get w sp).2.1 = Except.ok Value.undef := by
  simp [get, h, hu]

theorem get_ret_throw_nonuser (w : Watcher) (sp : EvalSpec)
    (h : sp.result = none) (hu : w.user = false) :
    (get w sp).2.1 = Except.error () := by
  simp [get, h, hu]

theorem get_reportError_of_throw_user (w : Watcher) (sp : EvalSpec)
    (h : sp.result = none) (hu : w.user = true) :
    Ev.reportError ∈ (get w sp).2.2 := by
  rw [get_snd_events, h]
  simp [hu]

theorem get_value (w : Watcher) (sp : EvalSpec) : (get w sp).1.value = w.value :=
  (get_fst_fields w sp).1

theorem get_active (w : Watcher) (sp : EvalSpec) : (get w sp).1.active = w.active :=
  (get_fst_fields w sp).2.1

theorem get_deep (w : Watcher) (sp : EvalSpec) : (get w sp).1.deep = w.deep :=
  (get_fst_fields w sp).2.2.1

theorem get_user (w : Watcher) (sp : EvalSpec) : (get w sp).1.user = w.user :=
  (get_fst_fields w sp).2.2.2.1

theorem get_dirty (w : Watcher) (sp : EvalSpec) : (get w sp).1.dirty = w.dirty :=
  (get_fst_fields w sp).2.2.2.2.2.2.1

/-- `teardown` on an already-inactive watcher does nothing. -/
theorem teardown_inactive (w : Watcher) (bd : Bool) (h : w.active = false) :
    teardown w bd = (w, []) := by
  simp [teardown, h]

/-- `run` on an inactive watcher does nothing at all. -/
theorem run_inactive (w : Watcher) (sp : EvalSpec) (cbT : Bool) (hact : w.active = false) :
    run w sp cbT = (w, Except.ok (), []) := by
  simp [run, hact]

/-- `run` when the change-detection condition holds: the new value is
stored, the callback is invoked (observing the already-updated stored
value), and a throwing user callback is reported while a throwing
non-user callback propagates. -/
theorem run_fire (w : Watcher) (sp : EvalSpec) (v : Value) (cbT : Bool)
    (hact : w.active = true) (hres : sp.result = some v)
    (hc : v ≠ w.value ∨ isObjectV v = true ∨ w.deep = true) :
    (run w sp cbT).1 = { (get w sp).1 with value := v } ∧
    (run w sp cbT).2.2 = (get w sp).2.2 ++ Ev.callCb v w.value v ::
        (if w.user = true ∧ cbT = true then [Ev.reportError] else []) ∧
    (run w sp cbT).2.1 = (if w.user = false ∧ cbT = true then Except.error () else Except.ok ()) := by
  have hok := get_ret_ok w sp v hres
  cases hu : w.user <;> cases hcb : cbT <;>
    simp [run, hact, hok, hc, get_user, get_value, get_deep, hu]

/-- `run` when the change-detection condition fails: no callback, no
state change beyond `get`'s own reconciliation. -/
theorem run_nofire (w : Watcher) (sp : EvalSpec) (v : Value) (cbT : Bool)
    (hact : w.active = true) (hres : sp.result = some v)
    (hc : ¬(v ≠ w.value ∨ isObjectV v = true ∨ w.deep = true)) :
    run w sp cbT = ((get w sp).1, Except.ok (), (get w sp).2.2) := by
  simp [run, hact, get_ret_ok w sp v hres, hc, get_value, get_deep]

/-! Claim theorems. -/

/-- Claim C1: during one in-flight evaluation (a sequence of `addDep`
calls), a dep id is added to the pending id set and pending list at most
once even when read repeatedly, and `addSub` is invoked exactly on the
ids newly added to the pending set that were absent from the previous
dep set — and at most once per id, so a publisher still subscribed from
the prior evaluation is never re-subscribed. -/
theorem addDep_idempotent_minimal_subscribe (w : Watcher) (reads : List Nat)
    (hnd : w.newDeps.Nodup) (hiff : ∀ x, x ∈ w.newDeps ↔ x ∈ w.newDepIds) :
    (runReads w reads).1.newDeps.Nodup ∧
    (∀ x, x ∈ (runReads w reads).1.newDepIds ↔ (x ∈ w.newDepIds ∨ x ∈ reads)) ∧
    (∀ d, (runReads w reads).2.count (Ev.addSub d) ≤ 1) ∧
    (∀ d, Ev.addSub d ∈ (runReads w reads).2 ↔
       (d ∈ reads ∧ d ∉ w.newDepIds ∧ d ∉ w.depIds)) := by
  obtain ⟨h1, h2⟩ := runReads_pending reads w hnd hiff
  refine ⟨h1, fun x => runReads_newDepIds reads w x, ?_, ?_⟩
  · intro d
    rw [runReads_addSub_count]
    split <;> omega
  · intro d
    have hcnt := runReads_addSub_count reads w d
    constructor
    · intro hm
      by_contra hcon
      rw [if_neg hcon] at hcnt
      exact (List.count_eq_zero.mp hcnt) hm
    · intro hyes
      rw [if_pos hyes] at hcnt
      by_contra hm
      rw [List.count_eq_zero.mpr hm] at hcnt
      exact one_ne_zero hcnt.symm

/-- Witness for C1: dep 3 is read twice but registered and subscribed once;
dep 2 is in the previous dep set so it is registered but not re-subscribed. -/
theorem addDep_idempotent_minimal_subscribe_witness :
    w0.newDeps.Nodup ∧ (∀ x, x ∈ w0.newDeps ↔ x ∈ w0.newDepIds) ∧
    (runReads w0 [3, 3, 2, 4]).1.newDeps.Nodup ∧
    (runReads w0 [3, 3, 2, 4]).2.count (Ev.addSub 3) ≤ 1 ∧
    (Ev.addSub 3 ∈ (runReads w0 [3, 3, 2, 4]).2 ↔
      (3 ∈ [3, 3, 2, 4] ∧ 3 ∉ w0.newDepIds ∧ 3 ∉ w0.depIds)) ∧
    (Ev.addSub 2 ∈ (runReads w0 [3, 3, 2, 4]).2 ↔
      (2 ∈ [3, 3, 2, 4] ∧ 2 ∉ w0.newDepIds ∧ 2 ∉ w0.depIds)) :=
  ⟨by decide, fun x => by simp [w0],
   (addDep_idempotent_minimal_subscribe w0 [3, 3, 2, 4] (by decide) (fun x => by simp [w0])).1,
   (addDep_idempotent_minimal_subscribe w0 [3, 3, 2, 4] (by decide) (fun x => by simp [w0])).2.2.1 3,
   (addDep_idempotent_minimal_subscribe w0 [3, 3, 2, 4] (by decide) (fun x => by simp [w0])).2.2.2 3,
   (addDep_idempotent_minimal_subscribe w0 [3, 3, 2, 4] (by decide) (fun x => by simp [w0])).2.2.2 2⟩

/-- Claim C2: `cleanupDeps` emits `removeSub` exactly for the previously
held deps absent from the pending id set, emits no `addSub` at all (so a
dep in both sets gets neither call), installs the pending set/list as the
current ones, empties the pending containers, and swaps the identities of
the double-buffered containers instead of allocating fresh ones. -/
theorem cleanupDeps_reconciliation (w : Watcher) :
    (∀ d, Ev.removeSub d ∈ (cleanupDeps w).2 ↔ (d ∈ w.deps ∧ d ∉ w.newDepIds)) ∧
    (∀ d, Ev.addSub d ∉ (cleanupDeps w).2) ∧
    (∀ d, d ∈ w.deps → d ∈ w.newDepIds → Ev.removeSub d ∉ (cleanupDeps w).2) ∧
    (cleanupDeps w).1.depIds = w.newDepIds ∧
    (cleanupDeps w).1.deps = w.newDeps ∧
    (cleanupDeps w).1.newDepIds = ∅ ∧
    (cleanupDeps w).1.newDeps = [] ∧
    (cleanupDeps w).1.depIdsTag = w.newDepIdsTag ∧
    (cleanupDeps w).1.newDepIdsTag = w.depIdsTag ∧
    (cleanupDeps w).1.depsTag = w.newDepsTag ∧
    (cleanupDeps w).1.newDepsTag = w.depsTag := by
  refine ⟨fun d => cleanupDeps_removeSub_mem w d, ?_, ?_, rfl, rfl, rfl, rfl, rfl, rfl, rfl, rfl⟩
  · intro d h
    obtain ⟨d', hd'⟩ := cleanupDeps_snd_shape w _ h
    exact absurd hd' (by simp)
  · intro d h1 h2 h
    exact ((cleanupDeps_removeSub_mem w d).mp h).2 h2

/-- Witness for C2: dep 1 was held and is not pending, so it is removed;
dep 2 is in both sets and receives no call; the container tags swap. -/
theorem cleanupDeps_reconciliation_witness :
    (Ev.removeSub 1 ∈ (cleanupDeps w1).2 ↔ (1 ∈ w1.deps ∧ 1 ∉ w1.newDepIds)) ∧
    Ev.removeSub 2 ∉ (cleanupDeps w1).2 ∧
    (cleanupDeps w1).1.depIdsTag = w1.newDepIdsTag ∧
    (cleanupDeps w1).1.newDepIdsTag = w1.depIdsTag :=
  ⟨(cleanupDeps_reconciliation w1).1 1,
   (cleanupDeps_reconciliation w1).2.2.1 2 (by decide) (by decide),
   (cleanupDeps_reconciliation w1).2.2.2.2.2.2.2.1,
   (cleanupDeps_reconciliation w1).2.2.2.2.2.2.2.2.1⟩

/-- Claim C3: every `get` — whether the getter returns or throws — runs
the guaranteed cleanup phase: the deep traversal of the (possibly
undefined) result happens exactly when `deep` is set, the target entry
pushed at the start is popped, and the dep sets are reconciled (the
final state is the reconciled one and the pending containers are empty);
a throwing getter is reported and yields `undefined` when `user` is set,
and otherwise the exception propagates to the caller. -/
theorem get_guaranteed_cleanup (w : Watcher) (sp : EvalSpec) :
    Ev.popTarget ∈ (get w sp).2.2 ∧
    ((Ev.traverseVal (resultValue sp) ∈ (get w sp).2.2) ↔ w.deep = true) ∧
    (get w sp).1 = (cleanupDeps (runReads w sp.reads).1).1 ∧
    (get w sp).1.newDepIds = ∅ ∧
    (get w sp).1.newDeps = [] ∧
    (∀ v, sp.result = some v → (get w sp).2.1 = Except.ok v) ∧
    (sp.result = none → w.user = true →
      (get w sp).2.1 = Except.ok Value.undef ∧ Ev.reportError ∈ (get w sp).2.2) ∧
    (sp.result = none → w.user = false → (get w sp).2.1 = Except.error ()) := by
  refine ⟨get_popTarget w sp, ?_, get_fst w sp, (get_fst_fields w sp).2.2.2.2.2.2.2.1,
    (get_fst_fields w sp).2.2.2.2.2.2.2.2, ?_, ?_, ?_⟩
  · rw [get_traverse_iff_deep]
    exact ⟨fun h => h.1, fun h => ⟨h, rfl⟩⟩
  · exact fun v hv => get_ret_ok w sp v hv
  · exact fun h hu => ⟨get_ret_throw_user w sp h hu, get_reportError_of_throw_user w sp h hu⟩
  · exact fun h hu => get_ret_throw_nonuser w sp h hu

/-- Witness for C3 on a deep user watcher whose getter throws: the
traversal of the undefined value happens, the target is popped, the error
is reported and the result is `undefined`. -/
theorem get_guaranteed_cleanup_witness :
    spThrow.result = none ∧ w2.user = true ∧ w2.deep = true ∧
    Ev.popTarget ∈ (get w2 spThrow).2.2 ∧
    (Ev.traverseVal (resultValue spThrow) ∈ (get w2 spThrow).2.2 ↔ w2.deep = true) ∧
    ((get w2 spThrow).2.1 = Except.ok Value.undef ∧ Ev.reportError ∈ (get w2 spThrow).2.2) :=
  ⟨rfl, rfl, rfl, (get_guaranteed_cleanup w2 spThrow).1,
   (get_guaranteed_cleanup w2 spThrow).2.1,
   (get_guaranteed_cleanup w2 spThrow).2.2.2.2.2.2.1 rfl rfl⟩

/-- Claim C4: for an active node, `run` invokes the change callback iff
the newly evaluated value differs from the stored `value` by
identity/equality, or is a composite (object/array), or `deep` is set;
when it fires it passes (new value, old value). -/
theorem run_change_detection (w : Watcher) (sp : EvalSpec) (v : Value) (cbT : Bool)
    (hact : w.active = true) (hres : sp.result = some v) :
    ((∃ ov obs, Ev.callCb v ov obs ∈ (run w sp cbT).2.2) ↔
       (v ≠ w.value ∨ isObjectV v = true ∨ w.deep = true)) ∧
    ((v ≠ w.value ∨ isObjectV v = true ∨ w.deep = true) →
       Ev.callCb v w.value v ∈ (run w sp cbT).2.2) := by
  constructor
  · constructor
    · rintro ⟨ov, obs, hm⟩
      by_contra hcon
      rw [run_nofire w sp v cbT hact hres hcon] at hm
      exact get_no_callCb w sp v ov obs hm
    · intro hc
      refine ⟨w.value, v, ?_⟩
      rw [(run_fire w sp v cbT hact hres hc).2.1]
      simp
  · intro hc
    rw [(run_fire w sp v cbT hact hres hc).2.1]
    simp

/-- Witness for C4: a non-lazy non-deep watcher re-evaluating to the same
primitive does not fire; re-evaluating to a composite fires. -/
theorem run_change_detection_witness :
    w0.active = true ∧ spSame.result = some (Value.prim 5) ∧
    spObj.result = some (Value.obj 0) ∧
    ¬(∃ ov obs, Ev.callCb (Value.prim 5) ov obs ∈ (run w0 spSame false).2.2) ∧
    Ev.callCb (Value.obj 0) w0.value (Value.obj 0) ∈ (run w0 spObj false).2.2 :=
  ⟨rfl, rfl, rfl,
   fun h => by
     have hc := (run_change_detection w0 spSame (Value.prim 5) false rfl rfl).1.mp h
     revert hc
     decide,
   (run_change_detection w0 spObj (Value.obj 0) false rfl rfl).2 (by decide)⟩

/-- Claim C5: `update` dispatches on the policy flags: a lazy watcher only
sets `dirty` and performs no run and no enqueue; a sync watcher runs
immediately and synchronously; any other watcher is handed to the
scheduler's enqueue primitive with no re-evaluation of its own. -/
theorem update_policy_dispatch (w : Watcher) (sp : EvalSpec) (cbT : Bool) :
    (w.lazy = true → update w sp cbT = ({ w with dirty := true }, Except.ok (), [])) ∧
    (w.lazy = false → w.sync = true → update w sp cbT = run w sp cbT) ∧
    (w.lazy = false → w.sync = false →
      update w sp cbT = (w, Except.ok (), [Ev.queueWatcher])) :=
  ⟨fun h => by simp [update, h],
   fun h1 h2 => by simp [update, h1, h2],
   fun h1 h2 => by simp [update, h1, h2]⟩

/-- Witness for C5: a lazy watcher only becomes dirty; a sync watcher's
`update` is exactly `run`; a plain watcher only enqueues. -/
theorem update_policy_dispatch_witness :
    w3.lazy = true ∧
    update w3 sp0 false = ({ w3 with dirty := true }, Except.ok (), []) ∧
    (w4.lazy = false ∧ w4.sync = true) ∧
    update w4 sp0 false = run w4 sp0 false ∧
    (w0.lazy = false ∧ w0.sync = false) ∧
    update w0 sp0 false = (w0, Except.ok (), [Ev.queueWatcher]) :=
  ⟨rfl, (update_policy_dispatch w3 sp0 false).1 rfl, ⟨rfl, rfl⟩,
   (update_policy_dispatch w4 sp0 false).2.1 rfl rfl, ⟨rfl, rfl⟩,
   (update_policy_dispatch w0 sp0 false).2.2 rfl rfl⟩

/-- Claim C6: `teardown` is idempotent and irreversible: the first call
emits `removeSub` for every dep held in the dependency set, `active` is
false afterwards and stays false under every operation, a second
`teardown` is a no-op, and a subsequent `run` is a complete no-op while a
subsequent `update` never invokes the change callback. -/
theorem teardown_finality (w : Watcher) (bd bd2 : Bool) :
    (w.active = true → ∀ d ∈ w.deps, Ev.removeSub d ∈ (teardown w bd).2) ∧
    (teardown w bd).1.active = false ∧
    teardown (teardown w bd).1 bd2 = ((teardown w bd).1, []) ∧
    (∀ sp cbT, run (teardown w bd).1 sp cbT = ((teardown w bd).1, Except.ok (), [])) ∧
    (∀ sp cbT a b c, Ev.callCb a b c ∉ (update (teardown w bd).1 sp cbT).2.2) ∧
    (∀ sp cbT, (update (teardown w bd).1 sp cbT).1.active = false) ∧
    (∀ sp, (evaluate (teardown w bd).1 sp).1.active = false) := by
  have hactf : (teardown w bd).1.active = false := by
    cases hw : w.active <;> simp [teardown, hw]
  refine ⟨?_, hactf, ?_, ?_, ?_, ?_, ?_⟩
  · intro hact d hd
    simp only [teardown, hact, if_true]
    simp only [List.mem_append, List.mem_map, List.mem_reverse]
    exact Or.inr ⟨d, hd, rfl⟩
  · exact teardown_inactive _ bd2 hactf
  · exact fun sp cbT => run_inactive _ sp cbT hactf
  · intro sp cbT a b c
    cases hl : (teardown w bd).1.lazy <;> cases hs : (teardown w bd).1.sync <;>
      simp [update, hl, hs, run_inactive _ sp cbT hactf]
  · intro sp cbT
    cases hl : (teardown w bd).1.lazy <;> cases hs : (teardown w bd).1.sync <;>
      simp [update, hl, hs, run_inactive _ sp cbT hactf, hactf]
  · intro sp
    have hga := get_active (teardown w bd).1 sp
    rcases hg : (get (teardown w bd).1 sp).2.1 with e | v <;>
      simp [evaluate, hg, hga, hactf]

/-- Witness for C6 on an active watcher holding deps 1 and 2. -/
theorem teardown_finality_witness :
    w1.active = true ∧ 1 ∈ w1.deps ∧
    Ev.removeSub 1 ∈ (teardown w1 false).2 ∧
    (teardown w1 false).1.active = false ∧
    teardown (teardown w1 false).1 false = ((teardown w1 false).1, []) ∧
    run (teardown w1 false).1 spSame false = ((teardown w1 false).1, Except.ok (), []) :=
  ⟨rfl, by decide,
   (teardown_finality w1 false false).1 rfl 1 (by decide),
   (teardown_finality w1 false false).2.1,
   (teardown_finality w1 false false).2.2.1,
   (teardown_finality w1 false false).2.2.2.1 spSame false⟩

/-- Claim C9: when `run` fires the callback, the new value is stored into
`value` before the callback is invoked — the `callCb` event's third
component, the watcher's stored value at invocation time, equals the new
value — and when a user callback throws, the stored value still retains
the new value (reported, not rolled back). -/
theorem run_stores_value_before_callback (w : Watcher) (sp : EvalSpec) (v : Value) (cbT : Bool)
    (hact : w.active = true) (hres : sp.result = some v)
    (hfire : v ≠ w.value ∨ isObjectV v = true ∨ w.deep = true) :
    Ev.callCb v w.value v ∈ (run w sp cbT).2.2 ∧
    (run w sp cbT).1.value = v ∧
    (w.user = true → cbT = true →
      Ev.reportError ∈ (run w sp cbT).2.2 ∧ (run w sp cbT).2.1 = Except.ok ()) := by
  obtain ⟨h1, h2, h3⟩ := run_fire w sp v cbT hact hres hfire
  refine ⟨by rw [h2]; simp, by rw [h1], ?_⟩
  intro hu hcb
  constructor
  · rw [h2]
    simp [hu, hcb]
  · rw [h3]
    simp [hu]

/-- Witness for C9: a user watcher whose callback throws still ends with
the new value stored, the callback observed the updated stored value, and
the error was reported. -/
theorem run_stores_value_before_callback_witness :
    w2.active = true ∧ sp0.result = some (Value.prim 6) ∧
    (Value.prim 6 ≠ w2.value ∨ isObjectV (Value.prim 6) = true ∨ w2.deep = true) ∧
    Ev.callCb (Value.prim 6) w2.value (Value.prim 6) ∈ (run w2 sp0 true).2.2 ∧
    (run w2 sp0 true).1.value = Value.prim 6 ∧
    Ev.reportError ∈ (run w2 sp0 true).2.2 ∧ (run w2 sp0 true).2.1 = Except.ok () :=
  ⟨rfl, rfl, by decide,
   (run_stores_value_before_callback w2 sp0 (Value.prim 6) true rfl rfl (by decide)).1,
   (run_stores_value_before_callback w2 sp0 (Value.prim 6) true rfl rfl (by decide)).2.1,
   ((run_stores_value_before_callback w2 sp0 (Value.prim 6) true rfl rfl (by decide)).2.2
     rfl rfl).1,
   ((run_stores_value_before_callback w2 sp0 (Value.prim 6) true rfl rfl (by decide)).2.2
     rfl rfl).2⟩

/-- Claim C10: when the getter throws during `evaluate`, a non-user
watcher propagates the exception and performs neither assignment —
`value` and `dirty` are unchanged (a stale lazy watcher stays dirty) —
while a user watcher completes with `value` set to `undefined` and
`dirty` cleared to false. -/
theorem evaluate_error_semantics (w : Watcher) (sp : EvalSpec) (hthrow : sp.result = none) :
    (w.user = false →
      (evaluate w sp).2.1 = Except.error () ∧
      (evaluate w sp).1.value = w.value ∧
      (evaluate w sp).1.dirty = w.dirty) ∧
    (w.user = true →
      (evaluate w sp).2.1 = Except.ok () ∧
      (evaluate w sp).1.value = Value.undef ∧
      (evaluate w sp).1.dirty = false) := by
  constructor
  · intro hu
    have hg := get_ret_throw_nonuser w sp hthrow hu
    exact ⟨by simp [evaluate, hg], by simp [evaluate, hg, get_value],
      by simp [evaluate, hg, get_dirty]⟩
  · intro hu
    have hg := get_ret_throw_user w sp hthrow hu
    exact ⟨by simp [evaluate, hg], by simp [evaluate, hg], by simp [evaluate, hg]⟩

/-- Witness for C10: a dirty lazy non-user watcher keeps its stale value
and stays dirty when the getter throws; a user watcher ends with
`undefined` and `dirty = false`. -/
theorem evaluate_error_semantics_witness :
    spThrow.result = none ∧ w3.user = false ∧ w3.lazy = true ∧ w3.dirty = true ∧
    ((evaluate w3 spThrow).2.1 = Except.error () ∧
     (evaluate w3 spThrow).1.value = w3.value ∧
     (evaluate w3 spThrow).1.dirty = w3.dirty) ∧
    w2.user = true ∧
    ((evaluate w2 spThrow).2.1 = Except.ok () ∧
     (evaluate w2 spThrow).1.value = Value.undef ∧
     (evaluate w2 spThrow).1.dirty = false) :=
  ⟨rfl, rfl, rfl, rfl, (evaluate_error_semantics w3 spThrow rfl).1 rfl, rfl,
   (evaluate_error_semantics w2 spThrow rfl).2 rfl⟩

/-! Helper lemmas about the deep traversal. -/

theorem hlookup_mem : ∀ (h : Heap) (r : Nat) (o : HObj), hlookup h r = some o → (r, o) ∈ h := by
  intro h
  induction h with
  | nil => intro r o hro; simp [hlookup] at hro
  | cons p rest ih =>
    intro r o hro
    rcases p with ⟨k, o'⟩
    by_cases hk : r = k
    · subst hk
      simp [hlookup] at hro
      subst hro
      exact List.mem_cons_self _ _
    · simp [hlookup, hk] at hro
      exact List.mem_cons_of_mem _ (ih r o hro)

theorem heapDepIds_mem : ∀ (h : Heap) (r : Nat) (o : HObj) (d : Nat),
    (r, o) ∈ h → o.ob = some d → d ∈ heapDepIds h := by
  intro h
  induction h with
  | nil => intro r o d hm; simp at hm
  | cons p rest ih =>
    intro r o d hm hob
    rcases List.mem_cons.mp hm with hm | hm
    · subst hm
      simp only [heapDepIds, List.foldr_cons, hob]
      exact Finset.mem_insert_self _ _
    · have hd := ih r o d hm hob
      simp only [heapDepIds, List.foldr_cons]
      rcases p.2.ob with _ | d'
      · exact hd
      · exact Finset.mem_insert_of_mem hd

theorem childFold_tinv (f : JSVal → Finset Nat → Option TraceResult)
    (hf : ∀ c s t, f c s = some t → TInv s t) :
    ∀ (cs : List JSVal) (s : Finset Nat) (t : TraceResult),
      childFold f cs s = some t → TInv s t := by
  intro cs
  induction cs with
  | nil =>
    intro s t hc
    simp only [childFold, Option.some.injEq] at hc
    subst hc
    exact ⟨by simp, List.nodup_nil, by simp⟩
  | cons c cs ih =>
    intro s t hc
    simp only [childFold] at hc
    rcases h1 : f c s with _ | t1
    · rw [h1] at hc; cases hc
    · rw [h1] at hc
      dsimp only at hc
      rcases h2 : childFold f cs t1.seen with _ | t2
      · rw [h2] at hc; cases hc
      · rw [h2] at hc
        dsimp only at hc
        simp only [Option.some.injEq] at hc
        subst hc
        obtain ⟨e1, n1, f1⟩ := hf c s t1 h1
        obtain ⟨e2, n2, f2⟩ := ih t1.seen t2 h2
        refine ⟨?_, ?_, ?_⟩
        · show t2.seen = s ∪ (t1.processed ++ t2.processed).toFinset
          rw [e2, e1, List.toFinset_append, Finset.union_assoc]
        · show (t1.processed ++ t2.processed).Nodup
          rw [List.nodup_append]
          refine ⟨n1, n2, ?_⟩
          intro a ha1 ha2
          have : a ∈ t1.seen := by
            rw [e1]
            exact Finset.mem_union_right _ (List.mem_toFinset.mpr ha1)
          exact f2 a ha2 this
        · show ∀ d ∈ t1.processed ++ t2.processed, d ∉ s
          intro d hd
          rcases List.mem_append.mp hd with hd | hd
          · exact f1 d hd
          · intro hds
            exact f2 d hd (by rw [e1]; exact Finset.mem_union_left _ hds)

theorem _traverse_tinv (h : Heap) : ∀ (fuel : Nat) (val : JSVal) (s : Finset Nat) (t : TraceResult),
    _traverse h fuel val s = some t → TInv s t := by
  intro fuel
  induction fuel with
  | zero => intro val s t ht; simp [_traverse] at ht
  | succ f ih =>
    intro val s t ht
    rcases val with _ | n | r
    · simp only [_traverse, Option.some.injEq] at ht
      subst ht
      exact ⟨by simp, List.nodup_nil, by simp⟩
    · simp only [_traverse, Option.some.injEq] at ht
      subst ht
      exact ⟨by simp, List.nodup_nil, by simp⟩
    · simp only [_traverse] at ht
      rcases hl : hlookup h r with _ | o
      · rw [hl] at ht
        dsimp only at ht
        simp only [Option.some.injEq] at ht
        subst ht
        exact ⟨by simp, List.nodup_nil, by simp⟩
      · rw [hl] at ht
        dsimp only at ht
        by_cases hf : (o.frozen || o.isVNode) = true
        · rw [if_pos hf] at ht
          simp only [Option.some.injEq] at ht
          subst ht
          exact ⟨by simp, List.nodup_nil, by simp⟩
        · rw [if_neg hf] at ht
          rcases ho : o.ob with _ | d
          · rw [ho] at ht
            dsimp only at ht
            exact childFold_tinv _ (fun c s t hc => ih c s t hc) _ _ _ ht
          · rw [ho] at ht
            dsimp only at ht
            by_cases hd : d ∈ s
            · rw [if_pos hd] at ht
              simp only [Option.some.injEq] at ht
              subst ht
              exact ⟨by simp, List.nodup_nil, by simp⟩
            · rw [if_neg hd] at ht
              rcases hcf : childFold (_traverse h f) o.fields.reverse (insert d s) with _ | t1
              · rw [hcf] at ht; cases ht
              · rw [hcf] at ht
                dsimp only at ht
                simp only [Option.some.injEq] at ht
                subst ht
                obtain ⟨e1, n1, f1⟩ :=
                  childFold_tinv _ (fun c s t hc => ih c s t hc) _ _ _ hcf
                refine ⟨?_, ?_, ?_⟩
                · show t1.seen = s ∪ (d :: t1.processed).toFinset
                  rw [e1, List.toFinset_cons]
                  rw [Finset.union_insert, Finset.insert_union]
                · show (d :: t1.processed).Nodup
                  rw [List.nodup_cons]
                  exact ⟨fun hdm => f1 d hdm (Finset.mem_insert_self _ _), n1⟩
                · show ∀ x ∈ d :: t1.processed, x ∉ s
                  intro x hx
                  rcases List.mem_cons.mp hx with hx | hx
                  · subst hx; exact hd
                  · intro hxs
                    exact f1 x hx (Finset.mem_insert_of_mem hxs)

theorem _traverse_seen_mono (h : Heap) (fuel : Nat) (val : JSVal) (s : Finset Nat)
    (t : TraceResult) (ht : _traverse h fuel val s = some t) : s ⊆ t.seen := by
  obtain ⟨e, _, _⟩ := _traverse_tinv h fuel val s t ht
  rw [e]
  exact Finset.subset_union_left

theorem childFold_seen_mono (f : JSVal → Finset Nat → Option TraceResult)
    (hmono : ∀ c s t, f c s = some t → s ⊆ t.seen) :
    ∀ (cs : List JSVal) (s : Finset Nat) (t : TraceResult),
      childFold f cs s = some t → s ⊆ t.seen := by
  intro cs
  induction cs with
  | nil =>
    intro s t hc
    simp only [childFold, Option.some.injEq] at hc
    subst hc
    exact Finset.Subset.refl _
  | cons c cs ih =>
    intro s t hc
    simp only [childFold] at hc
    rcases h1 : f c s with _ | t1
    · rw [h1] at hc; cases hc
    · rw [h1] at hc
      dsimp only at hc
      rcases h2 : childFold f cs t1.seen with _ | t2
      · rw [h2] at hc; cases hc
      · rw [h2] at hc
        dsimp only at hc
        simp only [Option.some.injEq] at hc
        subst hc
        exact (hmono c s t1 h1).trans (ih t1.seen t2 h2)

/-! Case equations for `_traverse` at positive fuel, and for `rkVal`. -/

theorem _traverse_undef (h : Heap) (f : Nat) (s : Finset Nat) :
    _traverse h (f + 1) JSVal.undef s = some ⟨s, [], []⟩ := rfl

theorem _traverse_prim (h : Heap) (f n : Nat) (s : Finset Nat) :
    _traverse h (f + 1) (JSVal.prim n) s = some ⟨s, [], []⟩ := rfl

theorem _traverse_ref_dangling (h : Heap) (f r : Nat) (s : Finset Nat)
    (hl : hlookup h r = none) :
    _traverse h (f + 1) (JSVal.ref r) s = some ⟨s, [], []⟩ := by
  simp only [_traverse]
  rw [hl]

theorem _traverse_ref_stop (h : Heap) (f r : Nat) (o : HObj) (s : Finset Nat)
    (hl : hlookup h r = some o) (hfz : (o.frozen || o.isVNode) = true) :
    _traverse h (f + 1) (JSVal.ref r) s = some ⟨s, [], []⟩ := by
  simp only [_traverse]
  rw [hl]
  dsimp only
  rw [if_pos hfz]

theorem _traverse_ref_seen (h : Heap) (f r : Nat) (o : HObj) (d : Nat) (s : Finset Nat)
    (hl : hlookup h r = some o) (hfz : (o.frozen || o.isVNode) = false)
    (ho : o.ob = some d) (hd : d ∈ s) :
    _traverse h (f + 1) (JSVal.ref r) s = some ⟨s, [], []⟩ := by
  simp only [_traverse]
  rw [hl]
  dsimp only
  rw [hfz, if_neg Bool.false_ne_true, ho]
  dsimp only
  rw [if_pos hd]

theorem _traverse_ref_new (h : Heap) (f r : Nat) (o : HObj) (d : Nat) (s : Finset Nat)
    (hl : hlookup h r = some o) (hfz : (o.frozen || o.isVNode) = false)
    (ho : o.ob = some d) (hd : d ∉ s) :
    _traverse h (f + 1) (JSVal.ref r) s =
      (match childFold (_traverse h f) o.fields.reverse (insert d s) with
       | none => none
       | some t => some ⟨t.seen, d :: t.processed, t.reads⟩) := by
  simp only [_traverse]
  rw [hl]
  dsimp only
  rw [hfz, if_neg Bool.false_ne_true, ho]
  dsimp only
  rw [if_neg hd]

theorem _traverse_ref_plain (h : Heap) (f r : Nat) (o : HObj) (s : Finset Nat)
    (hl : hlookup h r = some o) (hfz : (o.frozen || o.isVNode) = false)
    (ho : o.ob = none) :
    _traverse h (f + 1) (JSVal.ref r) s = childFold (_traverse h f) o.fields.reverse s := by
  simp only [_traverse]
  rw [hl]
  dsimp only
  rw [hfz, if_neg Bool.false_ne_true, ho]

theorem rkVal_ref_dangling (h : Heap) (rank : Nat → Nat) (r : Nat)
    (hl : hlookup h r = none) : rkVal h rank (JSVal.ref r) = 0 := by
  simp only [rkVal]
  rw [hl]

theorem rkVal_ref_stop (h : Heap) (rank : Nat → Nat) (r : Nat) (o : HObj)
    (hl : hlookup h r = some o) (hfz : (o.frozen || o.isVNode) = true) :
    rkVal h rank (JSVal.ref r) = 0 := by
  simp only [rkVal]
  rw [hl]
  dsimp only
  rw [if_pos hfz]

theorem rkVal_ref_live (h : Heap) (rank : Nat → Nat) (r : Nat) (o : HObj)
    (hl : hlookup h r = some o) (hfz : (o.frozen || o.isVNode) = false) :
    rkVal h rank (JSVal.ref r) = rank r + 1 := by
  simp only [rkVal]
  rw [hl]
  dsimp only
  rw [hfz, if_neg Bool.false_ne_true]

theorem rkVal_le (h : Heap) (rank : Nat → Nat) (R : Nat)
    (HR : ∀ p ∈ h, rank p.1 ≤ R) (v : JSVal) : rkVal h rank v ≤ R + 1 := by
  rcases v with _ | n | r
  · exact Nat.zero_le _
  · exact Nat.zero_le _
  · rcases hl : hlookup h r with _ | o
    · rw [rkVal_ref_dangling h rank r hl]
      exact Nat.zero_le _
    · by_cases hfz : (o.frozen || o.isVNode) = true
      · rw [rkVal_ref_stop h rank r o hl hfz]
        exact Nat.zero_le _
      · rw [rkVal_ref_live h rank r o hl (Bool.eq_false_iff.mpr hfz)]
        exact Nat.succ_le_succ (HR (r, o) (hlookup_mem h r o hl))

theorem tMeasure_anti (h : Heap) (rank : Nat → Nat) (R : Nat) (v : JSVal)
    (s s' : Finset Nat) (hss : s ⊆ s') :
    tMeasure h rank R v s' ≤ tMeasure h rank R v s := by
  have hc : (heapDepIds h \ s').card ≤ (heapDepIds h \ s).card :=
    Finset.card_le_card (Finset.sdiff_subset_sdiff (Finset.Subset.refl _) hss)
  exact Nat.add_le_add_right (Nat.mul_le_mul_right _ hc) _

theorem childFold_suff (h : Heap) (rank : Nat → Nat) (R F : Nat)
    (f : JSVal → Finset Nat → Option TraceResult)
    (hmono : ∀ c s t, f c s = some t → s ⊆ t.seen)
    (hsuf : ∀ c s, tMeasure h rank R c s + 1 ≤ F → (f c s).isSome = true) :
    ∀ (cs : List JSVal) (s : Finset Nat),
      (∀ c ∈ cs, tMeasure h rank R c s + 1 ≤ F) →
      (childFold f cs s).isSome = true := by
  intro cs
  induction cs with
  | nil => intro s hcs; simp [childFold]
  | cons c cs ih =>
    intro s hcs
    have h1 := hsuf c s (hcs c (List.mem_cons_self c cs))
    rcases hfc : f c s with _ | t1
    · rw [hfc] at h1; simp at h1
    · have h2 : (childFold f cs t1.seen).isSome = true := by
        apply ih
        intro c' hc'
        have ha := tMeasure_anti h rank R c' s t1.seen (hmono c s t1 hfc)
        have hb := hcs c' (List.mem_cons_of_mem _ hc')
        exact le_trans (Nat.add_le_add_right ha 1) hb
      rcases hfc2 : childFold f cs t1.seen with _ | t2
      · rw [hfc2] at h2; simp at h2
      · simp only [childFold]
        rw [hfc]
        dsimp only
        rw [hfc2]
        dsimp only
        rfl

theorem _traverse_suff (h : Heap) (rank : Nat → Nat) (R : Nat)
    (HR : ∀ p ∈ h, rank p.1 ≤ R)
    (Hrank : ∀ p ∈ h, p.2.ob = none → (p.2.frozen || p.2.isVNode) = false →
      ∀ c ∈ p.2.fields, childRankOk h rank (rank p.1) c = true) :
    ∀ (fuel : Nat) (val : JSVal) (s : Finset Nat),
      tMeasure h rank R val s + 1 ≤ fuel → (_traverse h fuel val s).isSome = true := by
  intro fuel
  induction fuel with
  | zero => intro val s hle; exact absurd hle (Nat.not_succ_le_zero _)
  | succ f ih =>
    intro val s hle
    have hle' : tMeasure h rank R val s ≤ f := Nat.le_of_succ_le_succ hle
    rcases val with _ | n | r
    · rw [_traverse_undef]
      rfl
    · rw [_traverse_prim]
      rfl
    · rcases hl : hlookup h r with _ | o
      · rw [_traverse_ref_dangling h f r s hl]
        rfl
      · by_cases hfz : (o.frozen || o.isVNode) = true
        · rw [_traverse_ref_stop h f r o s hl hfz]
          rfl
        · have hfz' : (o.frozen || o.isVNode) = false := Bool.eq_false_iff.mpr hfz
          have hin := hlookup_mem h r o hl
          have hrk : rkVal h rank (JSVal.ref r) = rank r + 1 := rkVal_ref_live h rank r o hl hfz'
          rcases ho : o.ob with _ | d
          · -- un-instrumented object: recurse on the same seen-set
            have hch : ∀ c ∈ o.fields.reverse, tMeasure h rank R c s + 1 ≤ f := by
              intro c hc
              rw [List.mem_reverse] at hc
              have hok := Hrank (r, o) hin ho hfz' c hc
              have hrkc : rkVal h rank c ≤ rank r := by
                rcases c with _ | n' | r'
                · exact Nat.zero_le _
                · exact Nat.zero_le _
                · simp only [childRankOk] at hok
                  rcases hl' : hlookup h r' with _ | o'
                  · rw [rkVal_ref_dangling h rank r' hl']
                    exact Nat.zero_le _
                  · rw [hl'] at hok
                    dsimp only at hok
                    by_cases hfz2 : (o'.frozen || o'.isVNode) = true
                    · rw [rkVal_ref_stop h rank r' o' hl' hfz2]
                      exact Nat.zero_le _
                    · have hfz2' : (o'.frozen || o'.isVNode) = false :=
                        Bool.eq_false_iff.mpr hfz2
                      rw [rkVal_ref_live h rank r' o' hl' hfz2']
                      rw [hfz2'] at hok
                      simp only [Bool.false_or, decide_eq_true_eq] at hok
                      exact hok
              have hstep : tMeasure h rank R c s + 1 ≤ tMeasure h rank R (JSVal.ref r) s := by
                show (heapDepIds h \ s).card * (R + 2) + rkVal h rank c + 1 ≤
                  (heapDepIds h \ s).card * (R + 2) + rkVal h rank (JSVal.ref r)
                rw [hrk, Nat.add_assoc]
                exact Nat.add_le_add_left (Nat.succ_le_succ hrkc) _
              exact le_trans hstep hle'
            have hcf := childFold_suff h rank R f (_traverse h f)
              (fun c s t hc => _traverse_seen_mono h f c s t hc)
              (fun c s hc => ih c s hc) o.fields.reverse s hch
            rw [_traverse_ref_plain h f r o s hl hfz' ho]
            exact hcf
          · by_cases hd : d ∈ s
            · rw [_traverse_ref_seen h f r o d s hl hfz' ho hd]
              rfl
            · have hdD : d ∈ heapDepIds h := heapDepIds_mem h r o d hin ho
              have hmem : d ∈ heapDepIds h \ s := Finset.mem_sdiff.mpr ⟨hdD, hd⟩
              have hpos : 0 < (heapDepIds h \ s).card := Finset.card_pos.mpr ⟨d, hmem⟩
              have hcard : (heapDepIds h \ insert d s).card + 1 = (heapDepIds h \ s).card := by
                have he : heapDepIds h \ insert d s = (heapDepIds h \ s).erase d := by
                  ext x
                  simp only [Finset.mem_sdiff, Finset.mem_erase, Finset.mem_insert]
                  tauto
                rw [he, Finset.card_erase_of_mem hmem]
                omega
              have hch : ∀ c ∈ o.fields.reverse,
                  tMeasure h rank R c (insert d s) + 1 ≤ f := by
                intro c hc
                have hrkc : rkVal h rank c ≤ R + 1 := rkVal_le h rank R HR c
                have h1 : tMeasure h rank R c (insert d s) + 1 ≤
                    ((heapDepIds h \ insert d s).card + 1) * (R + 2) := by
                  show (heapDepIds h \ insert d s).card * (R + 2) + rkVal h rank c + 1 ≤ _
                  calc (heapDepIds h \ insert d s).card * (R + 2) + rkVal h rank c + 1
                      = (heapDepIds h \ insert d s).card * (R + 2) + (rkVal h rank c + 1) := by
                        rw [Nat.add_assoc]
                    _ ≤ (heapDepIds h \ insert d s).card * (R + 2) + (R + 2) :=
                        Nat.add_le_add_left (Nat.succ_le_succ hrkc) _
                    _ = ((heapDepIds h \ insert d s).card + 1) * (R + 2) := by ring
                have h2 : ((heapDepIds h \ insert d s).card + 1) * (R + 2) =
                    (heapDepIds h \ s).card * (R + 2) := by rw [hcard]
                have h3 : (heapDepIds h \ s).card * (R + 2) ≤
                    tMeasure h rank R (JSVal.ref r) s := Nat.le_add_right _ _
                exact le_trans h1 (le_trans (le_of_eq h2) (le_trans h3 hle'))
              have hcf := childFold_suff h rank R f (_traverse h f)
                (fun c s t hc => _traverse_seen_mono h f c s t hc)
                (fun c s hc => ih c s hc) o.fields.reverse (insert d s) hch
              obtain ⟨t1, ht1⟩ := Option.isSome_iff_exists.mp hcf
              rw [_traverse_ref_new h f r o d s hl hfz' ho hd, ht1]
              rfl

theorem childFold_congr (f g : JSVal → Finset Nat → Option TraceResult)
    (hfg : ∀ c s t, f c s = some t → g c s = some t) :
    ∀ (cs : List JSVal) (s : Finset Nat) (t : TraceResult),
      childFold f cs s = some t → childFold g cs s = some t := by
  intro cs
  induction cs with
  | nil => intro s t hc; exact hc
  | cons c cs ih =>
    intro s t hc
    simp only [childFold] at hc ⊢
    rcases h1 : f c s with _ | t1
    · rw [h1] at hc; cases hc
    · rw [h1] at hc
      dsimp only at hc
      rcases h2 : childFold f cs t1.seen with _ | t2
      · rw [h2] at hc; cases hc
      · rw [h2] at hc
        dsimp only at hc
        rw [hfg c s t1 h1]
        dsimp only
        rw [ih t1.seen t2 h2]
        dsimp only
        exact hc

theorem _traverse_fuel_succ (h : Heap) : ∀ (fuel : Nat) (val : JSVal) (s : Finset Nat)
    (t : TraceResult), _traverse h fuel val s = some t → _traverse h (fuel + 1) val s = some t := by
  intro fuel
  induction fuel with
  | zero => intro val s t ht; simp [_traverse] at ht
  | succ f ih =>
    intro val s t ht
    rcases val with _ | n | r
    · rw [_traverse_undef] at ht
      rw [_traverse_undef]
      exact ht
    · rw [_traverse_prim] at ht
      rw [_traverse_prim]
      exact ht
    · rcases hl : hlookup h r with _ | o
      · rw [_traverse_ref_dangling h f r s hl] at ht
        rw [_traverse_ref_dangling h (f + 1) r s hl]
        exact ht
      · by_cases hfz : (o.frozen || o.isVNode) = true
        · rw [_traverse_ref_stop h f r o s hl hfz] at ht
          rw [_traverse_ref_stop h (f + 1) r o s hl hfz]
          exact ht
        · have hfz' : (o.frozen || o.isVNode) = false := Bool.eq_false_iff.mpr hfz
          rcases ho : o.ob with _ | d
          · rw [_traverse_ref_plain h f r o s hl hfz' ho] at ht
            rw [_traverse_ref_plain h (f + 1) r o s hl hfz' ho]
            exact childFold_congr _ _ (fun c s t hc => ih c s t hc) _ _ _ ht
          · by_cases hd : d ∈ s
            · rw [_traverse_ref_seen h f r o d s hl hfz' ho hd] at ht
              rw [_traverse_ref_seen h (f + 1) r o d s hl hfz' ho hd]
              exact ht
            · rw [_traverse_ref_new h f r o d s hl hfz' ho hd] at ht
              rw [_traverse_ref_new h (f + 1) r o d s hl hfz' ho hd]
              rcases hcf : childFold (_traverse h f) o.fields.reverse (insert d s) with _ | t1
              · try rw [hcf] at ht
                try dsimp only at ht
                cases ht
              · try rw [hcf] at ht
                try dsimp only at ht
                rw [childFold_congr _ _ (fun c s t hc => ih c s t hc) _ _ _ hcf]
                try dsimp only
                exact ht

theorem _traverse_fuel_mono (h : Heap) : ∀ (fuel' fuel : Nat), fuel ≤ fuel' →
    ∀ (val : JSVal) (s : Finset Nat) (t : TraceResult),
      _traverse h fuel val s = some t → _traverse h fuel' val s = some t := by
  intro fuel'
  induction fuel' with
  | zero =>
    intro fuel hff val s t ht
    have h0 : fuel = 0 := Nat.le_zero.mp hff
    subst h0
    simp [_traverse] at ht
  | succ f ih =>
    intro fuel hff val s t ht
    rcases Nat.lt_or_ge fuel (f + 1) with hlt | hge
    · exact _traverse_fuel_succ h f val s t (ih fuel (Nat.lt_succ_iff.mp hlt) val s t ht)
    · have he : fuel = f + 1 := Nat.le_antisymm hff hge
      rw [← he]
      exact ht

theorem childFold_reads (f : JSVal → Finset Nat → Option TraceResult) :
    ∀ (cs : List JSVal) (s : Finset Nat) (t : TraceResult),
      childFold f cs s = some t → ∀ c ∈ cs, c ∈ t.reads := by
  intro cs
  induction cs with
  | nil => intro s t hc c hcm; exact absurd hcm (List.not_mem_nil c)
  | cons c0 cs ih =>
    intro s t hc c hcm
    simp only [childFold] at hc
    rcases h1 : f c0 s with _ | t1
    · rw [h1] at hc; cases hc
    · rw [h1] at hc
      dsimp only at hc
      rcases h2 : childFold f cs t1.seen with _ | t2
      · rw [h2] at hc; cases hc
      · rw [h2] at hc
        dsimp only at hc
        simp only [Option.some.injEq] at hc
        subst hc
        rcases List.mem_cons.mp hcm with hcm | hcm
        · subst hcm
          show c ∈ (c :: t1.reads) ++ t2.reads
          exact List.mem_append_left _ (List.mem_cons_self _ _)
        · show c ∈ (c0 :: t1.reads) ++ t2.reads
          exact List.mem_append_right _ (ih t1.seen t2 h2 c hcm)

theorem childFold_pointwise (f : JSVal → Finset Nat → Option TraceResult)
    (hmono : ∀ c s t, f c s = some t → s ⊆ t.seen) :
    ∀ (cs : List JSVal) (s : Finset Nat) (t : TraceResult),
      childFold f cs s = some t →
      ∀ c ∈ cs, ∃ s' t', f c s' = some t' ∧ s ⊆ s' ∧ t'.seen ⊆ t.seen := by
  intro cs
  induction cs with
  | nil => intro s t hc c hcm; exact absurd hcm (List.not_mem_nil c)
  | cons c0 cs ih =>
    intro s t hc c hcm
    simp only [childFold] at hc
    rcases h1 : f c0 s with _ | t1
    · rw [h1] at hc; cases hc
    · rw [h1] at hc
      dsimp only at hc
      rcases h2 : childFold f cs t1.seen with _ | t2
      · rw [h2] at hc; cases hc
      · rw [h2] at hc
        dsimp only at hc
        simp only [Option.some.injEq] at hc
        subst hc
        rcases List.mem_cons.mp hcm with hcm | hcm
        · subst hcm
          exact ⟨s, t1, h1, Finset.Subset.refl s,
            childFold_seen_mono f hmono cs t1.seen t2 h2⟩
        · obtain ⟨s', t', hf', hs', ht'⟩ := ih t1.seen t2 h2 c hcm
          exact ⟨s', t', hf', (hmono c0 s t1 h1).trans hs', ht'⟩

theorem _traverse_dep_seen (h : Heap) : ∀ (fuel r : Nat) (o : HObj) (d : Nat)
    (s : Finset Nat) (t : TraceResult),
    hlookup h r = some o → (o.frozen || o.isVNode) = false → o.ob = some d →
    _traverse h fuel (JSVal.ref r) s = some t → d ∈ t.seen := by
  intro fuel
  rcases fuel with _ | f
  · intro r o d s t hl hfz ho ht
    simp [_traverse] at ht
  · intro r o d s t hl hfz ho ht
    by_cases hd : d ∈ s
    · rw [_traverse_ref_seen h f r o d s hl hfz ho hd] at ht
      simp only [Option.some.injEq] at ht
      subst ht
      exact hd
    · rw [_traverse_ref_new h f r o d s hl hfz ho hd] at ht
      rcases hcf : childFold (_traverse h f) o.fields.reverse (insert d s) with _ | t1
      · try rw [hcf] at ht
        try dsimp only at ht
        cases ht
      · try rw [hcf] at ht
        try dsimp only at ht
        simp only [Option.some.injEq] at ht
        subst ht
        have hsub := childFold_seen_mono (_traverse h f)
          (fun c s t hc => _traverse_seen_mono h f c s t hc) _ _ _ hcf
        exact hsub (Finset.mem_insert_self d s)

/-- Claim C7: over a heap in which every reference cycle passes through an
instrumented object — witnessed by a rank function that strictly decreases
from any traversable un-instrumented object to its traversable children —
a top-level `traverse` call terminates (at the stated fuel bound and at
every larger fuel, with the same result), processes each dep id's subtree
at most once per call (its processed list is duplicate-free, so no
duplicate subscription), and clears the visited set before returning, so
no visited state persists into the next top-level call. -/
theorem traverse_cycle_safe (h : Heap) (val : JSVal) (rank : Nat → Nat) (R : Nat)
    (HR : ∀ p ∈ h, rank p.1 ≤ R)
    (Hrank : ∀ p ∈ h, p.2.ob = none → (p.2.frozen || p.2.isVNode) = false →
      ∀ c ∈ p.2.fields, childRankOk h rank (rank p.1) c = true) :
    ∃ t, t.processed.Nodup ∧
      ∀ fuel, (heapDepIds h).card * (R + 2) + (R + 2) ≤ fuel →
        traverse h fuel val ∅ = some (t, ∅) := by
  have hb : tMeasure h rank R val ∅ + 1 ≤ (heapDepIds h).card * (R + 2) + (R + 2) := by
    show (heapDepIds h \ ∅).card * (R + 2) + rkVal h rank val + 1 ≤ _
    rw [Finset.sdiff_empty, Nat.add_assoc]
    exact Nat.add_le_add_left (Nat.succ_le_succ (rkVal_le h rank R HR val)) _
  have hs := _traverse_suff h rank R HR Hrank
    ((heapDepIds h).card * (R + 2) + (R + 2)) val ∅ hb
  obtain ⟨t, ht⟩ := Option.isSome_iff_exists.mp hs
  obtain ⟨_, nd, _⟩ := _traverse_tinv h _ val ∅ t ht
  refine ⟨t, nd, ?_⟩
  intro fuel hfuel
  have ht' := _traverse_fuel_mono h fuel _ hfuel val ∅ t ht
  simp only [traverse]
  rw [ht']

/-- Witness for C7: a self-referential instrumented object; the traversal
terminates at the computed bound, registers dep id 10 once, and returns
with the module-level visited set cleared. -/
theorem traverse_cycle_safe_witness :
    (∀ p ∈ hCyc, (fun _ => 0 : Nat → Nat) p.1 ≤ 0) ∧
    (∀ p ∈ hCyc, p.2.ob = none → (p.2.frozen || p.2.isVNode) = false →
      ∀ c ∈ p.2.fields, childRankOk hCyc (fun _ => 0) ((fun _ => 0 : Nat → Nat) p.1) c = true) ∧
    (∃ t, t.processed.Nodup ∧
      ∀ fuel, (heapDepIds hCyc).card * (0 + 2) + (0 + 2) ≤ fuel →
        traverse hCyc fuel (JSVal.ref 0) ∅ = some (t, ∅)) ∧
    traverse hCyc 4 (JSVal.ref 0) ∅ =
      some (⟨{10}, [10], [JSVal.prim 1, JSVal.ref 0]⟩, ∅) :=
  ⟨by decide, by decide,
   traverse_cycle_safe hCyc (JSVal.ref 0) (fun _ => 0) 0 (by decide) (by decide),
   by decide⟩

/-- Counterexample to claim C8 as stated.  The value `ref 2` is an
unfrozen, non-VNode object with own-key value `prim 7`, yet the traversal
call on it that occurs with `{1, 5}` already visited (the state reached
during the top-level traversal of `ref 0`, whose object holds two
references to object 2) reads no children at all: the instrumented
object's dep id 5 is already in the visited set, a stop condition the
claim does not list.  The top-level run reads `ref 2` twice but its child
`prim 7` only once. -/
theorem traverse_children_counterexample :
    hlookup hShared 2 = some ⟨false, false, false, some 5, [JSVal.prim 7]⟩ ∧
    ((false : Bool) || (false : Bool)) = false ∧
    _traverse hShared 5 (JSVal.ref 2) {5, 1} = some ⟨{5, 1}, [], []⟩ ∧
    JSVal.prim 7 ∈ [JSVal.prim 7] ∧
    traverse hShared 6 (JSVal.ref 0) ∅ =
      some (⟨{5, 1}, [1, 5], [JSVal.ref 2, JSVal.prim 7, JSVal.ref 2]⟩, ∅) ∧
    List.count (JSVal.ref 2) [JSVal.ref 2, JSVal.prim 7, JSVal.ref 2] = 2 ∧
    List.count (JSVal.prim 7) [JSVal.ref 2, JSVal.prim 7, JSVal.ref 2] = 1 :=
  ⟨rfl, rfl, rfl, by decide, rfl, by decide, by decide⟩

/-- Claim C8 (amended): for every value passed to the deep traversal, it
recurses into no children when the value is not a composite, is dangling,
is frozen, or is a VNode instance — and likewise when it is an
instrumented object whose dep id is already in the visited set; otherwise
it reads and recurses into every child (every array element / every
own-key value): each child value appears among the values read, and every
traversable instrumented child's dep id ends up in the returned
visited set. -/
theorem traverse_children (h : Heap) :
    (∀ f s, _traverse h (f + 1) JSVal.undef s = some ⟨s, [], []⟩) ∧
    (∀ f n s, _traverse h (f + 1) (JSVal.prim n) s = some ⟨s, [], []⟩) ∧
    (∀ f r s, hlookup h r = none → _traverse h (f + 1) (JSVal.ref r) s = some ⟨s, [], []⟩) ∧
    (∀ f r o s, hlookup h r = some o → (o.frozen || o.isVNode) = true →
      _traverse h (f + 1) (JSVal.ref r) s = some ⟨s, [], []⟩) ∧
    (∀ f r o d s, hlookup h r = some o → (o.frozen || o.isVNode) = false →
      o.ob = some d → d ∈ s →
      _traverse h (f + 1) (JSVal.ref r) s = some ⟨s, [], []⟩) ∧
    (∀ fuel r o s t, hlookup h r = some o → (o.frozen || o.isVNode) = false →
      (∀ d, o.ob = some d → d ∉ s) →
      _traverse h fuel (JSVal.ref r) s = some t →
      (∀ c ∈ o.fields, c ∈ t.reads) ∧
      (∀ c ∈ o.fields, ∀ r' o' d', c = JSVal.ref r' → hlookup h r' = some o' →
        (o'.frozen || o'.isVNode) = false → o'.ob = some d' → d' ∈ t.seen)) := by
  refine ⟨fun f s => _traverse_undef h f s, fun f n s => _traverse_prim h f n s,
    fun f r s hl => _traverse_ref_dangling h f r s hl,
    fun f r o s hl hfz => _traverse_ref_stop h f r o s hl hfz,
    fun f r o d s hl hfz ho hd => _traverse_ref_seen h f r o d s hl hfz ho hd, ?_⟩
  intro fuel r o s t hl hfz hno ht
  rcases fuel with _ | f
  · simp [_traverse] at ht
  · rcases ho : o.ob with _ | d
    · rw [_traverse_ref_plain h f r o s hl hfz ho] at ht
      constructor
      · intro c hc
        exact childFold_reads _ _ _ _ ht c (List.mem_reverse.mpr hc)
      · intro c hc r' o' d' hcr hl' hfz' ho'
        obtain ⟨s', t', hf', _, hseen⟩ := childFold_pointwise (_traverse h f)
          (fun c s t hc => _traverse_seen_mono h f c s t hc) _ _ _ ht c
          (List.mem_reverse.mpr hc)
        subst hcr
        exact hseen (_traverse_dep_seen h f r' o' d' s' t' hl' hfz' ho' hf')
    · have hd : d ∉ s := hno d ho
      rw [_traverse_ref_new h f r o d s hl hfz ho hd] at ht
      rcases hcf : childFold (_traverse h f) o.fields.reverse (insert d s) with _ | t1
      · try rw [hcf] at ht
        try dsimp only at ht
        cases ht
      · try rw [hcf] at ht
        try dsimp only at ht
        simp only [Option.some.injEq] at ht
        subst ht
        constructor
        · intro c hc
          show c ∈ t1.reads
          exact childFold_reads _ _ _ _ hcf c (List.mem_reverse.mpr hc)
        · intro c hc r' o' d' hcr hl' hfz' ho'
          obtain ⟨s', t', hf', _, hseen⟩ := childFold_pointwise (_traverse h f)
            (fun c s t hc => _traverse_seen_mono h f c s t hc) _ _ _ hcf c
            (List.mem_reverse.mpr hc)
          subst hcr
          show d' ∈ t1.seen
          exact hseen (_traverse_dep_seen h f r' o' d' s' t' hl' hfz' ho' hf')

/-- Witness for the amended C8 on the shared-substructure heap: the
top-level object's two child values are both read, the nested dep id 5
lands in the visited set, and a primitive leaf call reads nothing. -/
theorem traverse_children_witness :
    hlookup hShared 0 = some ⟨false, false, false, some 1, [JSVal.ref 2, JSVal.ref 2]⟩ ∧
    _traverse hShared 6 (JSVal.ref 0) ∅ =
      some ⟨{5, 1}, [1, 5], [JSVal.ref 2, JSVal.prim 7, JSVal.ref 2]⟩ ∧
    (∀ c ∈ (⟨false, false, false, some 1, [JSVal.ref 2, JSVal.ref 2]⟩ : HObj).fields,
      c ∈ (⟨{5, 1}, [1, 5], [JSVal.ref 2, JSVal.prim 7, JSVal.ref 2]⟩ : TraceResult).reads) ∧
    _traverse hShared 1 (JSVal.prim 7) {3} = some ⟨{3}, [], []⟩ :=
  ⟨rfl, rfl,
   ((traverse_children hShared).2.2.2.2.2 6 0
     ⟨false, false, false, some 1, [JSVal.ref 2, JSVal.ref 2]⟩ ∅
     ⟨{5, 1}, [1, 5], [JSVal.ref 2, JSVal.prim 7, JSVal.ref 2]⟩
     rfl rfl
     (by
       intro d hd
       simp only [Option.some.injEq] at hd
       subst hd
       exact Finset.not_mem_empty 1)
     rfl).1,
   (traverse_children hShared).2.1 0 7 {3}⟩

end VueCore
